import Mathlib

/-
Verification of the document crawler (src/crawler/crawler.py) against its
specification.  The Python code is shallowly embedded: strings are Lean
strings (lists of unicode code points, matching CPython str), the results of
the external reader libraries (python-docx, openpyxl, xlrd, pdfplumber,
PyPDF2, zipfile, ...) are modelled as data carried by each file, and the
file-system walk is modelled as the ordered list of files it yields.
Metadata that the crawler merely copies out of the environment (file size,
creation date, MD5 hash) is carried as opaque data on each file.  Scratch
directory paths produced by tempfile.mkdtemp are environment dependent, so
the file_path column (which would point into a scratch directory for
extracted members) is not modelled; every other record column is.
-/

namespace Crawler

/-- Characters for which CPython str.isspace is true; this is the set matched
by the str-mode regex class backslash-s used in clean_text, and the set
stripped by str.strip. -/
def isPySpace (c : Char) : Bool :=
  c ∈ ([' ', '\t', '\n', '\x0b', '\x0c', '\r',
        '\x1c', '\x1d', '\x1e', '\x1f', '\x85', '\xa0',
        '\u1680', '\u2000', '\u2001', '\u2002', '\u2003', '\u2004', '\u2005',
        '\u2006', '\u2007', '\u2008', '\u2009', '\u200a',
        '\u2028', '\u2029', '\u202f', '\u205f', '\u3000'] : List Char)

mutual
/-- Model of re.sub applied with pattern backslash-s-plus and replacement
one space: every maximal nonempty run of whitespace characters is replaced
by a single space, all other characters are kept unchanged. -/
def collapseWS : List Char → List Char
  | [] => []
  | c :: rest => if isPySpace c then ' ' :: skipWS rest else c :: collapseWS rest

/-- Consumes the remainder of a whitespace run whose start collapseWS has
already replaced by one space, then resumes collapsing. -/
def skipWS : List Char → List Char
  | [] => []
  | c :: rest => if isPySpace c then skipWS rest else c :: collapseWS rest
end

/-- Drops trailing whitespace, the right half of str.strip. -/
def dropTrailWS (l : List Char) : List Char :=
  ((l.reverse.dropWhile isPySpace)).reverse

/-- Model of str.strip with no argument: drop leading and trailing
whitespace characters. -/
def stripChars (l : List Char) : List Char :=
  dropTrailWS (l.dropWhile isPySpace)

/-- Model of str.replace applied with a one-character pattern: removes every
NUL character. -/
def removeNul (l : List Char) : List Char :=
  l.filter (fun c => c != '\x00')

/-- Model of crawler.clean_text: the falsy-empty early return, then
re.sub of whitespace runs, then str.strip, then removal of NUL bytes,
exactly in the order of the source line. -/
def clean_text (s : String) : String :=
  if s.data.isEmpty then "" else String.mk (removeNul (stripChars (collapseWS s.data)))

/-- Model of str.strip on whole strings, used by the parsers for truthiness
tests on stripped text. -/
def pyStrip (s : String) : String :=
  String.mk (stripChars s.data)

/-- Boolean check that a character list never carries two adjacent
whitespace characters (in particular, never two adjacent spaces). -/
def wsAdjFreeB : List Char → Bool
  | [] => true
  | [_] => true
  | a :: b :: rest => (!(isPySpace a && isPySpace b)) && wsAdjFreeB (b :: rest)

/-- Predicate form of wsAdjFreeB. -/
def wsAdjFree (l : List Char) : Prop :=
  wsAdjFreeB l = true

instance (l : List Char) : Decidable (wsAdjFree l) :=
  inferInstanceAs (Decidable (wsAdjFreeB l = true))


/-- Model of os.path.splitext followed by str.lower, restricted to a file
name (splitext only ever splits inside the base name, so directory parts are
irrelevant): the extension starts at the last dot, except when no non-dot
character precedes that dot inside the name, in which case it is empty. -/
def extChars (name : List Char) : List Char :=
  let afterDot := name.reverse.takeWhile (fun c => c != '.')
  if afterDot.length = name.length then []
  else
    let stem := name.take (name.length - afterDot.length - 1)
    if stem.any (fun c => c != '.') then
      ('.' :: afterDot.reverse).map Char.toLower
    else []

/-- Extension of a file name, as a string. -/
def extOfName (s : String) : String :=
  String.mk (extChars s.data)

/-- SUPPORTED_EXTENSIONS, documents entry. -/
def documentsExts : List String := [".docx", ".doc", ".pdf"]

/-- SUPPORTED_EXTENSIONS, spreadsheets entry. -/
def spreadsheetsExts : List String := [".xlsx", ".xls"]

/-- SUPPORTED_EXTENSIONS, archives entry. -/
def archivesExts : List String := [".zip", ".7z", ".rar"]

/-- Data seen through python-docx: paragraph texts in document order, then
tables as lists of rows of cell texts. -/
structure DocxDoc where
  paragraphs : List String
  tables : List (List (List String))

/-- Data seen through openpyxl: sheets in workbook order, each a name and
rows of cells, a cell being None (modelled none) or its str rendering. -/
structure XlsxDoc where
  sheets : List (String × List (List (Option String)))

/-- Data seen through xlrd: sheets with rows of cell values.  xlrd cell
values are never None (empty cells read as empty strings), so the None test
in the source never drops a cell; all cell renderings are kept. -/
structure XlsDoc where
  sheets : List (String × List (List String))

/-- Data seen through the two PDF readers: the per-page extract_text results
of pdfplumber (None or a string per page) and of PyPDF2 (a string per page);
an error value stands for the library raising on this file. -/
structure PdfFile where
  plumberPages : Except String (List (Option String))
  pypdf2Pages : Except String (List String)

/-- Everything the crawler reads from one concrete file: metadata copied
into the record, and what each reader library yields when pointed at the
file (an error value models that library raising an exception). -/
structure FileMeta where
  size : Nat
  createdDate : String
  contentHash : String
  docxView : Except String DocxDoc
  xlsxView : Except String XlsxDoc
  xlsView : Except String XlsDoc
  pdfView : PdfFile

/-- Model of str.join: interleave a separator between the parts. -/
def joinSep (sep : String) : List String → String
  | [] => ""
  | [x] => x
  | x :: rest => x ++ sep ++ joinSep sep rest

/-- Model of parse_docx: paragraphs with nonempty stripped text in order,
then all table rows (stripped nonempty cells joined with a bar, empty rows
dropped), joined by newlines and cleaned; an exception becomes the bracketed
DOCX error placeholder. -/
def parse_docx (v : Except String DocxDoc) : String :=
  match v with
  | Except.error e => "[Error parsing DOCX: " ++ e ++ "]"
  | Except.ok doc =>
      let paraParts := doc.paragraphs.filter (fun t => pyStrip t != "")
      let rowLine (row : List String) : Option String :=
        let cells := (row.map pyStrip).filter (fun t => t != "")
        if cells.isEmpty then none else some (joinSep " | " cells)
      let tableParts := (doc.tables.map (fun rows => rows.filterMap rowLine)).flatten
      clean_text (joinSep "\n" (paraParts ++ tableParts))

/-- Model of parse_xlsx: a sheet marker line per sheet, then per row the
non-None cells joined with a bar, rows with no non-None cell dropped. -/
def parse_xlsx (v : Except String XlsxDoc) : String :=
  match v with
  | Except.error e => "[Error parsing XLSX: " ++ e ++ "]"
  | Except.ok wb =>
      let sheetParts (sh : String × List (List (Option String))) : List String :=
        ("[Sheet: " ++ sh.1 ++ "]") ::
          sh.2.filterMap (fun row =>
            let vals := row.filterMap (fun c => c)
            if vals.isEmpty then none else some (joinSep " | " vals))
      clean_text (joinSep "\n" ((wb.sheets.map sheetParts).flatten))

/-- Model of parse_xls: same shape as parse_xlsx, but xlrd cell values are
never None, so every cell is kept; only rows with no columns are dropped. -/
def parse_xls (v : Except String XlsDoc) : String :=
  match v with
  | Except.error e => "[Error parsing XLS: " ++ e ++ "]"
  | Except.ok wb =>
      let sheetParts (sh : String × List (List String)) : List String :=
        ("[Sheet: " ++ sh.1 ++ "]") ::
          sh.2.filterMap (fun row =>
            if row.isEmpty then none else some (joinSep " | " row))
      clean_text (joinSep "\n" ((wb.sheets.map sheetParts).flatten))

/-- Page parts built by parse_pdf_pdfplumber: enumerate(pdf.pages, 1) keeps
counting over every page, a page contributes a marker line and its text only
when extract_text returned a string that is truthy and strips nonempty. -/
def plumberParts (n : Nat) : List (Option String) → List String
  | [] => []
  | ot :: rest =>
      match ot with
      | some t =>
          if t != "" && pyStrip t != "" then
            ("[Page " ++ Nat.repr n ++ "]") :: t :: plumberParts (n + 1) rest
          else plumberParts (n + 1) rest
      | none => plumberParts (n + 1) rest

/-- Model of parse_pdf_pdfplumber: page parts joined by newlines and
cleaned; an exception is caught and becomes the empty string. -/
def parse_pdf_pdfplumber (v : Except String (List (Option String))) : String :=
  match v with
  | Except.error _ => ""
  | Except.ok pages => clean_text (joinSep "\n" (plumberParts 1 pages))

/-- Page parts built by parse_pdf_pypdf2: enumerate(reader.pages) is
0-based and the marker renders page_num + 1. -/
def pypdf2Parts (n : Nat) : List String → List String
  | [] => []
  | t :: rest =>
      if pyStrip t != "" then
        ("[Page " ++ Nat.repr (n + 1) ++ "]") :: t :: pypdf2Parts (n + 1) rest
      else pypdf2Parts (n + 1) rest

/-- Model of parse_pdf_pypdf2: page parts joined by newlines and cleaned;
an exception is caught and becomes the empty string. -/
def parse_pdf_pypdf2 (v : Except String (List String)) : String :=
  match v with
  | Except.error _ => ""
  | Except.ok pages => clean_text (joinSep "\n" (pypdf2Parts 0 pages))

/-- Sentinel returned by parse_pdf when the selected text is falsy. -/
def pdfSentinel : String := "[No text could be extracted from PDF]"

/-- Model of parse_pdf: pdfplumber first; when its result has fewer than 50
characters the PyPDF2 result is tried and kept only when strictly longer;
a falsy final text becomes the sentinel placeholder. -/
def parse_pdf (p : PdfFile) : String :=
  let text := parse_pdf_pdfplumber p.plumberPages
  let text2 :=
    if text.length < 50 then
      let backup := parse_pdf_pypdf2 p.pypdf2Pages
      if text.length < backup.length then backup else text
    else text
  if text2 = "" then pdfSentinel else text2

/-- Model of the parsers dict of parse_document: extension to reader. -/
def parsersLookup (ext : String) : Option (FileMeta → String) :=
  if ext = ".docx" then some (fun m => parse_docx m.docxView)
  else if ext = ".doc" then some (fun m => parse_docx m.docxView)
  else if ext = ".xlsx" then some (fun m => parse_xlsx m.xlsxView)
  else if ext = ".xls" then some (fun m => parse_xls m.xlsView)
  else if ext = ".pdf" then some (fun m => parse_pdf m.pdfView)
  else none

/-- Model of parse_document: dispatch through the parsers dict, with the
unsupported-type placeholder when the extension is not a key. -/
def parse_document (ext : String) (m : FileMeta) : String :=
  match parsersLookup ext with
  | some p => p m
  | none => "[Unsupported file type: " ++ ext ++ "]"

/-- One output record of the crawler; field order follows CSV_COLUMNS.  The
file_path column points into an environment-chosen scratch directory for
extracted members and is not modelled. -/
structure Record where
  id : Nat
  file_name : String
  file_type : String
  file_size : Nat
  content : String
  archive_path : String
  created_date : String
  content_hash : String
deriving DecidableEq

mutual
/-- One file as discovered by the walk or inside an archive: its base name,
the data read from it, whether extracting it as an archive succeeds (for 7z
and rar this also covers the optional library being available), and the
member files an extraction yields. -/
inductive FSFile where
  | mk (name : String) (meta : FileMeta) (extractOk : Bool) (members : FSList)

/-- List of files, as a mutual inductive so that the crawler recursion is
structural. -/
inductive FSList where
  | nil
  | cons (head : FSFile) (tail : FSList)
end

/-- Base name of a file. -/
def FSFile.name : FSFile → String
  | .mk n _ _ _ => n

/-- Data read from a file. -/
def FSFile.meta : FSFile → FileMeta
  | .mk _ m _ _ => m

/-- Whether extraction of this file as an archive succeeds. -/
def FSFile.extractOk : FSFile → Bool
  | .mk _ _ ok _ => ok

/-- Members yielded by a successful extraction. -/
def FSFile.members : FSFile → FSList
  | .mk _ _ _ ms => ms

/-- Conversion from ordinary lists of files. -/
def fsList : List FSFile → FSList
  | [] => .nil
  | f :: r => .cons f (fsList r)

/-- Model of extract_archive: dispatch on the extension (unsupported archive
formats yield nothing), then the extractor either populates the scratch
directory with the member files or fails and yields nothing. -/
def extract_archive (f : FSFile) : FSList :=
  if extOfName f.name ∈ archivesExts then
    (if f.extractOk then f.members else .nil)
  else .nil

/-- Model of DocumentCrawler._process_file: files whose extension is not a
supported document or spreadsheet extension yield no record; otherwise a
record is built whose id is one plus the length that self.documents has at
this moment (passed here as n). -/
def processFile (n : Nat) (archivePath : String) (f : FSFile) : Option Record :=
  let ext := extOfName f.name
  if ext ∈ documentsExts ++ spreadsheetsExts then
    some { id := n + 1
           file_name := f.name
           file_type := if ext ∈ documentsExts then "document" else "spreadsheet"
           file_size := f.meta.size
           content := parse_document ext f.meta
           archive_path := archivePath
           created_date := f.meta.createdDate
           content_hash := f.meta.contentHash }
  else none

/-- Provenance chain extension of _process_archive: the archive name alone
at top level, otherwise parent chain, slash, archive name. -/
def fullOf (parent name : String) : String :=
  if parent = "" then name else parent ++ "/" ++ name

mutual
/-- Model of DocumentCrawler._process_archive: extend the provenance chain
with this archive name, extract (the conditions inline extract_archive:
archive-extension dispatch and extractor success), then process the members
in order.  The id base n is the length self.documents had when the walk
reached the enclosing top-level archive; the source reads
len(self.documents) inside, which does not change during archive
processing. -/
def processArchive (n : Nat) (parent : String) : FSFile → List Record
  | FSFile.mk name _meta ok members =>
      let full := fullOf parent name
      if extOfName name ∈ archivesExts then
        (if ok then processMembers n full members else [])
      else []

/-- Loop body of _process_archive over the extracted member files: archives
recurse with the extended chain, other files are processed with the current
chain, results are concatenated in order. -/
def processMembers (n : Nat) (full : String) : FSList → List Record
  | .nil => []
  | .cons m rest =>
      (if extOfName m.name ∈ archivesExts then processArchive n full m
       else (processFile n full m).toList) ++ processMembers n full rest
end

/-- Records contributed by one walked file given the current length n of
self.documents: archives via _process_archive, others via _process_file. -/
def newRecords (n : Nat) (f : FSFile) : List Record :=
  if extOfName f.name ∈ archivesExts then processArchive n "" f
  else (processFile n "" f).toList

/-- One iteration of the walk loop in DocumentCrawler.crawl: extend
self.documents with the archive results, or append a produced record. -/
def crawlStep (docs : List Record) (f : FSFile) : List Record :=
  if extOfName f.name ∈ archivesExts then docs ++ processArchive docs.length "" f
  else
    match processFile docs.length "" f with
    | some doc => docs ++ [doc]
    | none => docs

/-- The walk loop of DocumentCrawler.crawl over the files the os.walk
traversal yields, in order, starting from the current self.documents. -/
def crawlWalk (docs : List Record) (files : List FSFile) : List Record :=
  files.foldl crawlStep docs

/-- Records appended by a walk that starts with n records accumulated. -/
def crawlNew (n : Nat) : List FSFile → List Record
  | [] => []
  | f :: rest =>
      let rs := newRecords n f
      rs ++ crawlNew (n + rs.length) rest

/-- Model of DocumentCrawler.crawl: when the storage root is missing the
method returns an empty list and leaves self.documents untouched; otherwise
it walks every file and returns self.documents.  The result pairs the new
self.documents state with the returned list. -/
def crawlRun (storageExists : Bool) (files : List FSFile) (docs : List Record) :
    List Record × List Record :=
  if storageExists then
    let d := crawlWalk docs files
    (d, d)
  else (docs, [])

/-- Extensions the crawler reacts to anywhere: supported documents,
spreadsheets and archives. -/
def isRelevantExt (f : FSFile) : Bool :=
  decide (extOfName f.name ∈ documentsExts ++ spreadsheetsExts ++ archivesExts)

mutual
/-- Removal of every file with an unsupported extension, at every nesting
level, keeping everything else; used to state that such files contribute
nothing to a crawl. -/
def pruneFS : FSFile → FSFile
  | FSFile.mk name meta ok members => FSFile.mk name meta ok (pruneList members)

/-- Member-list part of pruneFS. -/
def pruneList : FSList → FSList
  | .nil => .nil
  | .cons m rest =>
      if isRelevantExt m then .cons (pruneFS m) (pruneList rest) else pruneList rest
end

/-- Removal of unsupported-extension files from a walk list, recursively. -/
def pruneFiles (files : List FSFile) : List FSFile :=
  (files.filter isRelevantExt).map pruneFS


/-- Reader views for a file none of the libraries can open. -/
def unreadablePdf : PdfFile :=
  { plumberPages := Except.error "not a pdf", pypdf2Pages := Except.error "not a pdf" }

/-- Metadata of a concrete file that no reader can parse. -/
def metaPlain : FileMeta :=
  { size := 0
    createdDate := "2024-01-01T00:00:00"
    contentHash := "00"
    docxView := Except.error "not a docx"
    xlsxView := Except.error "not a xlsx"
    xlsView := Except.error "not a xls"
    pdfView := unreadablePdf }

/-- Metadata of a concrete DOCX file holding the given paragraphs. -/
def docxMeta (paras : List String) : FileMeta :=
  { metaPlain with docxView := Except.ok { paragraphs := paras, tables := [] } }

/-- Concrete DOCX leaf file. -/
def docxLeaf (name : String) (paras : List String) : FSFile :=
  FSFile.mk name (docxMeta paras) true .nil

/-- Concrete zip archive holding two DOCX files, the failing input for the
id claim. -/
def c1Zip : FSFile :=
  FSFile.mk "a.zip" metaPlain true
    (fsList [docxLeaf "d1.docx" ["One"], docxLeaf "d2.docx" ["Two"]])

/-- Concrete doubly nested archive: outer.zip containing inner.zip
containing c.docx. -/
def c2Outer : FSFile :=
  FSFile.mk "outer.zip" metaPlain true
    (fsList [FSFile.mk "inner.zip" metaPlain true (fsList [docxLeaf "c.docx" ["Deep"]])])

/-- Concrete top-level DOCX file. -/
def c2TopDocx : FSFile := docxLeaf "top.docx" ["Top"]

/-- Concrete PDF file on which pdfplumber raises and PyPDF2 extracts real
text. -/
def c6PdfFile : FSFile :=
  FSFile.mk "r.pdf"
    { metaPlain with
        pdfView := { plumberPages := Except.error "boom"
                     pypdf2Pages := Except.ok ["Recovered text"] } }
    true .nil

/-- Concrete DOCX file on which python-docx raises. -/
def c6BadDocx : FSFile :=
  FSFile.mk "bad.docx"
    { metaPlain with docxView := Except.error "bad zip" } true .nil

/-- Concrete storage holding a single DOCX file. -/
def c9Files : List FSFile := [docxLeaf "only.docx" ["Hi"]]

/-- Page entry of the specification reading of the pdfplumber loop: the pair
carries the 1-based page number produced by enumerate(pdf.pages, 1). -/
def plumberPageEntry (q : Nat × Option String) : List String :=
  match q.2 with
  | some t =>
      if t != "" && pyStrip t != "" then ["[Page " ++ Nat.repr q.1 ++ "]", t] else []
  | none => []

/-- Specification reading of the claim wording for the primary PDF reader:
pages enumerated from 1, each contributing its marker line and text. -/
def plumberSpecParts (pages : List (Option String)) : List String :=
  ((pages.enumFrom 1).map plumberPageEntry).flatten

/-- Concrete PDF file whose primary reader yields a short text and whose
secondary reader yields nothing. -/
def c5DemoPdf : PdfFile :=
  { plumberPages := Except.ok [some "Hi"], pypdf2Pages := Except.ok [] }

/-- Concrete zip archive whose extraction fails. -/
def badZip : FSFile := FSFile.mk "bad.zip" metaPlain false FSList.nil

/-- Concrete file with an unsupported extension. -/
def txtFile : FSFile := FSFile.mk "notes.txt" metaPlain true FSList.nil

end Crawler

namespace Crawler

theorem mem_collapse_skip (l : List Char) :
    (∀ c ∈ collapseWS l, c = ' ' ∨ (c ∈ l ∧ isPySpace c = false)) ∧
    (∀ c ∈ skipWS l, c = ' ' ∨ (c ∈ l ∧ isPySpace c = false)) := by
  induction l with
  | nil => constructor <;> intro c hc <;> simp [collapseWS, skipWS] at hc
  | cons c rest ih =>
    cases hc : isPySpace c with
    | true =>
      constructor
      · intro d hd
        simp only [collapseWS, hc, if_true] at hd
        rcases List.mem_cons.mp hd with h1 | h1
        · exact Or.inl h1
        · rcases ih.2 d h1 with h2 | ⟨h2, h3⟩
          · exact Or.inl h2
          · exact Or.inr ⟨List.mem_cons_of_mem _ h2, h3⟩
      · intro d hd
        simp only [skipWS, hc, if_true] at hd
        rcases ih.2 d hd with h2 | ⟨h2, h3⟩
        · exact Or.inl h2
        · exact Or.inr ⟨List.mem_cons_of_mem _ h2, h3⟩
    | false =>
      have hmem : ∀ d ∈ c :: collapseWS rest, d = ' ' ∨ (d ∈ c :: rest ∧ isPySpace d = false) := by
        intro d hd
        rcases List.mem_cons.mp hd with h1 | h1
        · subst h1; exact Or.inr ⟨List.mem_cons_self _ _, hc⟩
        · rcases ih.1 d h1 with h2 | ⟨h2, h3⟩
          · exact Or.inl h2
          · exact Or.inr ⟨List.mem_cons_of_mem _ h2, h3⟩
      constructor
      · intro d hd
        simp only [collapseWS, hc, if_false] at hd
        exact hmem d hd
      · intro d hd
        simp only [skipWS, hc, if_false] at hd
        exact hmem d hd

theorem head_skipWS : ∀ (l : List Char) (c : Char),
    (skipWS l).head? = some c → isPySpace c = false := by
  intro l
  induction l with
  | nil => intro c hc; simp [skipWS] at hc
  | cons a rest ih =>
    intro c hc
    cases ha : isPySpace a with
    | true =>
      simp only [skipWS, ha, if_true] at hc
      exact ih c hc
    | false =>
      simp only [skipWS, ha, if_false, List.head?_cons] at hc
      cases hc; exact ha

theorem wsAdjFree_cons {a : Char} {l : List Char} :
    wsAdjFree (a :: l) ↔
      (∀ b, l.head? = some b → ¬(isPySpace a = true ∧ isPySpace b = true)) ∧ wsAdjFree l := by
  cases l with
  | nil =>
    constructor
    · intro _
      refine ⟨fun b hb => ?_, rfl⟩
      cases hb
    · intro _; rfl
  | cons b rest =>
    constructor
    · intro h
      have h1 : (!(isPySpace a && isPySpace b)) = true ∧ wsAdjFreeB (b :: rest) = true := by
        simpa [wsAdjFree, wsAdjFreeB] using h
      refine ⟨?_, h1.2⟩
      intro b2 hb2
      simp only [List.head?_cons, Option.some.injEq] at hb2
      subst hb2
      rintro ⟨hsa, hsb⟩
      rw [hsa, hsb] at h1
      simpa using h1.1
    · rintro ⟨h1, h2⟩
      have h3 := h1 b rfl
      show wsAdjFreeB (a :: b :: rest) = true
      have h4 : (isPySpace a && isPySpace b) = false := by
        cases hsa : isPySpace a with
        | false => simp
        | true =>
          cases hsb : isPySpace b with
          | false => simp
          | true => exact absurd ⟨hsa, hsb⟩ h3
      simp [wsAdjFreeB, h4]
      exact h2

theorem wsAdjFree_tail {a : Char} {l : List Char} (h : wsAdjFree (a :: l)) : wsAdjFree l :=
  (wsAdjFree_cons.mp h).2

theorem noadj_collapse_skip (l : List Char) :
    wsAdjFree (collapseWS l) ∧ wsAdjFree (skipWS l) := by
  induction l with
  | nil => exact ⟨rfl, rfl⟩
  | cons c rest ih =>
    cases hc : isPySpace c with
    | true =>
      constructor
      · show wsAdjFree (collapseWS (c :: rest))
        simp only [collapseWS, hc, if_true]
        refine wsAdjFree_cons.mpr ⟨?_, ih.2⟩
        intro b hb
        rintro ⟨_, hsb⟩
        rw [head_skipWS rest b hb] at hsb
        cases hsb
      · show wsAdjFree (skipWS (c :: rest))
        simp only [skipWS, hc, if_true]
        exact ih.2
    | false =>
      have hcons : wsAdjFree (c :: collapseWS rest) := by
        refine wsAdjFree_cons.mpr ⟨?_, ih.1⟩
        intro b _
        rintro ⟨hsa, _⟩
        rw [hc] at hsa; cases hsa
      constructor
      · show wsAdjFree (collapseWS (c :: rest))
        simp only [collapseWS, hc, if_false]
        exact hcons
      · show wsAdjFree (skipWS (c :: rest))
        simp only [skipWS, hc, if_false]
        exact hcons

theorem wsAdjFree_iff_chain (l : List Char) :
    wsAdjFree l ↔
      List.Chain' (fun a b => ¬(isPySpace a = true ∧ isPySpace b = true)) l := by
  induction l with
  | nil => simp [wsAdjFree, wsAdjFreeB]
  | cons a tail ih =>
    cases tail with
    | nil => simp [wsAdjFree, wsAdjFreeB]
    | cons b rest =>
      rw [List.chain'_cons, ← ih, wsAdjFree_cons]
      simp only [List.head?_cons]
      constructor
      · rintro ⟨h1, h2⟩
        exact ⟨h1 b rfl, h2⟩
      · rintro ⟨h1, h2⟩
        refine ⟨?_, h2⟩
        intro b2 hb2
        cases hb2
        exact h1

theorem wsAdjFree_reverse {l : List Char} (h : wsAdjFree l) : wsAdjFree l.reverse := by
  rw [wsAdjFree_iff_chain] at h ⊢
  rw [List.chain'_reverse]
  exact h.imp (fun a b hab hc => hab ⟨hc.2, hc.1⟩)

theorem noadj_dropWhile {l : List Char} (h : wsAdjFree l) :
    wsAdjFree (l.dropWhile isPySpace) := by
  induction l with
  | nil => exact h
  | cons a rest ih =>
    cases ha : isPySpace a with
    | true => simp only [List.dropWhile_cons, ha, if_true]; exact ih (wsAdjFree_tail h)
    | false => simp only [List.dropWhile_cons, ha, Bool.false_eq_true, if_false]; exact h

theorem noadj_dropTrail {l : List Char} (h : wsAdjFree l) : wsAdjFree (dropTrailWS l) :=
  wsAdjFree_reverse (noadj_dropWhile (wsAdjFree_reverse h))

theorem noadj_strip {l : List Char} (h : wsAdjFree l) : wsAdjFree (stripChars l) :=
  noadj_dropTrail (noadj_dropWhile h)

theorem head_dropWhile_not : ∀ (l : List Char) (c : Char),
    (l.dropWhile isPySpace).head? = some c → isPySpace c = false := by
  intro l
  induction l with
  | nil => intro c hc; cases hc
  | cons a rest ih =>
    intro c hc
    cases ha : isPySpace a with
    | true =>
      simp only [List.dropWhile_cons, ha, if_true] at hc
      exact ih c hc
    | false =>
      simp only [List.dropWhile_cons, ha, Bool.false_eq_true, if_false, List.head?_cons,
        Option.some.injEq] at hc
      subst hc; exact ha

theorem dropWhile_eq_self_of_head {l : List Char}
    (h : ∀ c, l.head? = some c → isPySpace c = false) :
    l.dropWhile isPySpace = l := by
  cases l with
  | nil => rfl
  | cons a rest =>
    rw [List.dropWhile_cons, h a rfl]
    simp

theorem mem_dropWhile_sub {l : List Char} {c : Char}
    (h : c ∈ l.dropWhile isPySpace) : c ∈ l := by
  induction l with
  | nil => cases h
  | cons a rest ih =>
    cases ha : isPySpace a with
    | true =>
      simp only [List.dropWhile_cons, ha, if_true] at h
      exact List.mem_cons_of_mem _ (ih h)
    | false =>
      simp only [List.dropWhile_cons, ha, Bool.false_eq_true, if_false] at h
      exact h

theorem getLast?_dropWhile_ne : ∀ (l : List Char),
    l.dropWhile isPySpace ≠ [] →
    (l.dropWhile isPySpace).getLast? = l.getLast? := by
  intro l
  induction l with
  | nil => intro h; cases h rfl
  | cons a rest ih =>
    intro h
    cases ha : isPySpace a with
    | true =>
      simp only [List.dropWhile_cons, ha, if_true] at h ⊢
      have hrest : rest ≠ [] := by
        intro he; rw [he] at h; exact h rfl
      cases rest with
      | nil => cases hrest rfl
      | cons b r2 => rw [List.getLast?_cons_cons]; exact ih h
    | false => simp only [List.dropWhile_cons, ha, Bool.false_eq_true, if_false]

theorem stripChars_sub {l : List Char} {c : Char} (h : c ∈ stripChars l) : c ∈ l := by
  unfold stripChars dropTrailWS at h
  rw [List.mem_reverse] at h
  have h2 := mem_dropWhile_sub h
  rw [List.mem_reverse] at h2
  exact mem_dropWhile_sub h2

theorem head_stripChars (l : List Char) (c : Char)
    (h : (stripChars l).head? = some c) : isPySpace c = false := by
  unfold stripChars dropTrailWS at h
  rw [List.head?_reverse] at h
  by_cases hn : (l.dropWhile isPySpace).reverse.dropWhile isPySpace = []
  · rw [hn] at h; cases h
  · rw [getLast?_dropWhile_ne _ hn, List.getLast?_reverse] at h
    exact head_dropWhile_not _ _ h

theorem last_stripChars (l : List Char) (c : Char)
    (h : (stripChars l).getLast? = some c) : isPySpace c = false := by
  unfold stripChars dropTrailWS at h
  rw [List.getLast?_reverse] at h
  exact head_dropWhile_not _ _ h

theorem clean_text_data (s : String) :
    (clean_text s).data = removeNul (stripChars (collapseWS s.data)) := by
  cases s with
  | mk d => cases d <;> rfl

theorem mem_clean_ne_nul {s : String} {c : Char}
    (h : c ∈ (clean_text s).data) : c ≠ '\x00' := by
  rw [clean_text_data] at h
  unfold removeNul at h
  have := List.of_mem_filter h
  simpa using this

theorem ws_clean_is_space {s : String} {c : Char}
    (h : c ∈ (clean_text s).data) (hs : isPySpace c = true) : c = ' ' := by
  rw [clean_text_data] at h
  have h1 : c ∈ stripChars (collapseWS s.data) := List.mem_of_mem_filter h
  have h2 : c ∈ collapseWS s.data := stripChars_sub h1
  rcases (mem_collapse_skip s.data).1 c h2 with h3 | ⟨_, h3⟩
  · exact h3
  · rw [hs] at h3; cases h3

theorem removeNul_eq_self {l : List Char} (h : ∀ c ∈ l, c ≠ '\x00') :
    removeNul l = l :=
  List.filter_eq_self.mpr (fun c hc => by simpa using h c hc)

theorem clean_data_of_no_nul {s : String} (h : '\x00' ∉ s.data) :
    (clean_text s).data = stripChars (collapseWS s.data) := by
  rw [clean_text_data]
  apply removeNul_eq_self
  intro c hc hceq
  subst hceq
  have h2 := stripChars_sub hc
  rcases (mem_collapse_skip s.data).1 _ h2 with h3 | ⟨h3, _⟩
  · exact absurd h3 (by decide)
  · exact h h3

theorem collapse_eq_self : ∀ l : List Char,
    (∀ c ∈ l, isPySpace c = true → c = ' ') → wsAdjFree l →
    collapseWS l = l ∧
      ((∀ c, l.head? = some c → isPySpace c = false) → skipWS l = l) := by
  intro l
  induction l with
  | nil => intro _ _; exact ⟨rfl, fun _ => rfl⟩
  | cons c rest ih =>
    intro hws hadj
    have hwsRest : ∀ d ∈ rest, isPySpace d = true → d = ' ' :=
      fun d hd => hws d (List.mem_cons_of_mem _ hd)
    have ihr := ih hwsRest (wsAdjFree_tail hadj)
    constructor
    · cases hc : isPySpace c with
      | true =>
        have hceq : c = ' ' := hws c (List.mem_cons_self _ _) hc
        simp only [collapseWS, hc, if_true]
        have hhead : ∀ d, rest.head? = some d → isPySpace d = false := by
          intro d hd
          have hne := (wsAdjFree_cons.mp hadj).1 d hd
          cases hsd : isPySpace d with
          | true => exact absurd ⟨hc, hsd⟩ hne
          | false => rfl
        rw [ihr.2 hhead, hceq]
      | false =>
        simp only [collapseWS, hc, Bool.false_eq_true, if_false]
        rw [ihr.1]
    · intro hhd
      have hc : isPySpace c = false := hhd c rfl
      simp only [skipWS, hc, Bool.false_eq_true, if_false]
      rw [ihr.1]

theorem dropTrail_eq_self {l : List Char}
    (h : ∀ c, l.getLast? = some c → isPySpace c = false) :
    dropTrailWS l = l := by
  unfold dropTrailWS
  rw [dropWhile_eq_self_of_head, List.reverse_reverse]
  intro c hc
  rw [List.head?_reverse] at hc
  exact h c hc

theorem strip_eq_self {l : List Char}
    (hh : ∀ c, l.head? = some c → isPySpace c = false)
    (hl : ∀ c, l.getLast? = some c → isPySpace c = false) :
    stripChars l = l := by
  unfold stripChars
  rw [dropWhile_eq_self_of_head hh]
  exact dropTrail_eq_self hl

theorem stringDataEq {s t : String} (h : s.data = t.data) : s = t := by
  cases s; cases t; exact congrArg String.mk h


/-- C3 (corrected): clean_text collapses every whitespace run to one space,
trims the ends, then removes NUL bytes, in that order.  For every input the
result contains no NUL, no newline and no tab, and every whitespace
character in it is a plain space; when the input contains no NUL byte the
result moreover never has two adjacent whitespace characters (hence never
two consecutive spaces) and has no leading or trailing whitespace.  The
unconditional wording of the claim fails because the NUL removal runs after
collapsing and trimming. -/
theorem c3_clean_text_normalization (s : String) :
    (∀ c ∈ (clean_text s).data, c ≠ '\x00') ∧
    (∀ c ∈ (clean_text s).data, isPySpace c = true → c = ' ') ∧
    '\n' ∉ (clean_text s).data ∧
    '\t' ∉ (clean_text s).data ∧
    ('\x00' ∉ s.data →
      wsAdjFree (clean_text s).data ∧
      (∀ c, (clean_text s).data.head? = some c → isPySpace c = false) ∧
      (∀ c, (clean_text s).data.getLast? = some c → isPySpace c = false)) := by
  refine ⟨fun c hc => mem_clean_ne_nul hc, fun c hc => ws_clean_is_space hc, ?_, ?_, ?_⟩
  · intro hmem
    have := ws_clean_is_space hmem (by decide)
    exact absurd this (by decide)
  · intro hmem
    have := ws_clean_is_space hmem (by decide)
    exact absurd this (by decide)
  · intro hnul
    have hd := clean_data_of_no_nul hnul
    rw [hd]
    exact ⟨noadj_strip (noadj_collapse_skip s.data).1,
      fun c hc => head_stripChars _ _ hc, fun c hc => last_stripChars _ _ hc⟩

/-- C3 counterexample: on the input a-space-NUL-space-b clean_text yields
two consecutive spaces, and on NUL-space-a it yields a leading space,
refuting the claim that the result never contains two consecutive spaces
and is always trimmed. -/
theorem c3_counterexample :
    clean_text "a \x00 b" = "a  b" ∧ ¬ wsAdjFree (clean_text "a \x00 b").data ∧
    clean_text "\x00 a" = " a" :=
  ⟨by decide, by decide, by decide⟩

/-- C3 witness: the normalization theorem applied at a concrete NUL-free
input. -/
theorem c3_witness :
    '\x00' ∉ (" a\n\tb " : String).data ∧ wsAdjFree (clean_text " a\n\tb ").data :=
  ⟨by decide, ((c3_clean_text_normalization " a\n\tb ").2.2.2.2 (by decide)).1⟩

/-- C4 (corrected): clean_text is idempotent on every input that contains no
NUL byte; on inputs with a NUL adjacent to whitespace idempotence can fail,
because NUL removal happens after whitespace collapsing. -/
theorem c4_clean_text_idempotent (s : String) (h : '\x00' ∉ s.data) :
    clean_text (clean_text s) = clean_text s := by
  apply stringDataEq
  have hd := clean_data_of_no_nul h
  have hws : ∀ c ∈ (clean_text s).data, isPySpace c = true → c = ' ' :=
    fun c hc => ws_clean_is_space hc
  have hadj : wsAdjFree (clean_text s).data := by
    rw [hd]; exact noadj_strip (noadj_collapse_skip s.data).1
  have hhead : ∀ c, (clean_text s).data.head? = some c → isPySpace c = false := by
    rw [hd]; exact fun c hc => head_stripChars _ _ hc
  have hlast : ∀ c, (clean_text s).data.getLast? = some c → isPySpace c = false := by
    rw [hd]; exact fun c hc => last_stripChars _ _ hc
  have hnul2 : '\x00' ∉ (clean_text s).data := fun hm => mem_clean_ne_nul hm rfl
  rw [clean_data_of_no_nul hnul2]
  rw [(collapse_eq_self ((clean_text s).data) hws hadj).1]
  exact strip_eq_self hhead hlast

/-- C4 counterexample: clean_text is not idempotent on
a-space-NUL-space-b. -/
theorem c4_counterexample :
    clean_text (clean_text "a \x00 b") ≠ clean_text "a \x00 b" := by decide

/-- C4 witness: idempotence at a concrete NUL-free input. -/
theorem c4_witness :
    '\x00' ∉ ("  x \n y  " : String).data ∧
      clean_text (clean_text "  x \n y  ") = clean_text "  x \n y  " :=
  ⟨by decide, c4_clean_text_idempotent "  x \n y  " (by decide)⟩


theorem string_length_empty : ("" : String).length = 0 := rfl

theorem parse_pdf_of_empty (p : PdfFile)
    (h1 : parse_pdf_pdfplumber p.plumberPages = "")
    (h2 : parse_pdf_pypdf2 p.pypdf2Pages = "") : parse_pdf p = pdfSentinel := by
  simp only [parse_pdf]
  rw [h1, h2]
  rfl

theorem plumberParts_enumFrom : ∀ (pages : List (Option String)) (k : Nat),
    plumberParts k pages = ((pages.enumFrom k).map plumberPageEntry).flatten := by
  intro pages
  induction pages with
  | nil => intro k; rfl
  | cons ot rest ih =>
    intro k
    cases ot with
    | none =>
      simp only [plumberParts, List.enumFrom, List.map_cons, List.flatten_cons,
        plumberPageEntry]
      rw [ih (k + 1)]
      rfl
    | some t =>
      simp only [plumberParts, List.enumFrom, List.map_cons, List.flatten_cons,
        plumberPageEntry]
      rw [ih (k + 1)]
      split <;> simp

theorem processFile_some_spec {n : Nat} {ap : String} {f : FSFile} {r : Record}
    (h : processFile n ap f = some r) :
    extOfName (FSFile.name f) ∈ documentsExts ++ spreadsheetsExts ∧
    r.id = n + 1 ∧ r.archive_path = ap ∧
    r.content = parse_document (extOfName (FSFile.name f)) (FSFile.meta f) := by
  by_cases hsupp : extOfName (FSFile.name f) ∈ documentsExts ++ spreadsheetsExts
  · simp only [processFile] at h
    rw [if_pos hsupp] at h
    simp only [Option.some.injEq] at h
    subst h
    exact ⟨hsupp, rfl, rfl, rfl⟩
  · simp only [processFile] at h
    rw [if_neg hsupp] at h
    cases h

theorem processFile_some_of_supported {n : Nat} {ap : String} {f : FSFile}
    (hsupp : extOfName (FSFile.name f) ∈ documentsExts ++ spreadsheetsExts) :
    ∃ r, processFile n ap f = some r := by
  cases hp : processFile n ap f with
  | some r => exact ⟨r, rfl⟩
  | none =>
    exfalso
    simp only [processFile] at hp
    rw [if_pos hsupp] at hp
    cases hp

theorem parsersLookup_isSome {e : String}
    (he : e ∈ documentsExts ++ spreadsheetsExts) : (parsersLookup e).isSome = true := by
  simp only [documentsExts, spreadsheetsExts, List.mem_append, List.mem_cons,
    List.mem_singleton, List.not_mem_nil, or_false] at he
  rcases he with (h | h | h) | (h | h) <;> subst h <;> rfl

/-- C5 (confirmed): the primary PDF reader output is the per-page texts each
prefixed by a 1-based page marker (pages enumerated from 1, a page
contributing only when its extracted text strips nonempty), joined and
normalized; when that output is shorter than 50 characters the secondary
reader is tried and replaces it exactly when strictly longer; and when both
readers yield the empty string the result is the fixed sentinel
placeholder. -/
theorem c5_parse_pdf_strategy (p : PdfFile) :
    (∀ pages, p.plumberPages = Except.ok pages →
        parse_pdf_pdfplumber p.plumberPages =
          clean_text (joinSep "\n" (plumberSpecParts pages))) ∧
    (50 ≤ (parse_pdf_pdfplumber p.plumberPages).length →
        parse_pdf p = parse_pdf_pdfplumber p.plumberPages) ∧
    ((parse_pdf_pdfplumber p.plumberPages).length < 50 →
      (parse_pdf_pypdf2 p.pypdf2Pages).length ≤ (parse_pdf_pdfplumber p.plumberPages).length →
        parse_pdf p =
          (if parse_pdf_pdfplumber p.plumberPages = "" then pdfSentinel
           else parse_pdf_pdfplumber p.plumberPages)) ∧
    ((parse_pdf_pdfplumber p.plumberPages).length < 50 →
      (parse_pdf_pdfplumber p.plumberPages).length < (parse_pdf_pypdf2 p.pypdf2Pages).length →
        parse_pdf p = parse_pdf_pypdf2 p.pypdf2Pages) ∧
    (parse_pdf_pdfplumber p.plumberPages = "" → parse_pdf_pypdf2 p.pypdf2Pages = "" →
        parse_pdf p = pdfSentinel) := by
  refine ⟨?_, ?_, ?_, ?_, fun h1 h2 => parse_pdf_of_empty p h1 h2⟩
  · intro pages hp
    rw [hp]
    show clean_text (joinSep "\n" (plumberParts 1 pages)) =
      clean_text (joinSep "\n" (plumberSpecParts pages))
    rw [plumberParts_enumFrom]
    rfl
  · intro h
    have hne : parse_pdf_pdfplumber p.plumberPages ≠ "" := by
      intro he
      rw [he, string_length_empty] at h
      exact absurd h (by decide)
    simp only [parse_pdf]
    rw [if_neg (not_lt.mpr h), if_neg hne]
  · intro h1 h2
    simp only [parse_pdf]
    rw [if_pos h1, if_neg (not_lt.mpr h2)]
  · intro h1 h2
    have hbne : parse_pdf_pypdf2 p.pypdf2Pages ≠ "" := by
      intro he
      rw [he, string_length_empty] at h2
      exact Nat.not_lt_zero _ h2
    simp only [parse_pdf]
    rw [if_pos h1, if_pos h2, if_neg hbne]

/-- C5 witness: the strategy theorem applied to a concrete PDF whose primary
text is short and whose secondary reader yields nothing. -/
theorem c5_witness :
    parse_pdf c5DemoPdf =
      (if parse_pdf_pdfplumber c5DemoPdf.plumberPages = "" then pdfSentinel
       else parse_pdf_pdfplumber c5DemoPdf.plumberPages) :=
  (c5_parse_pdf_strategy c5DemoPdf).2.2.1 (by decide) (by decide)

/-- C1 (code_bug): the id base len(self.documents) is read while the walk
loop is still inside a top-level archive, before the archive results are
extended onto self.documents, so a storage holding one zip with two DOCX
members yields two records that both carry id 1: ids are neither unique nor
strictly increasing, against both the claim and the evident intent of a
sequential id column. -/
theorem c1_duplicate_ids :
    ((crawlRun true [c1Zip] []).2.map Record.id = [1, 1]) ∧
    ¬ List.Chain' (fun a b => a < b) ((crawlRun true [c1Zip] []).2.map Record.id) := by
  have h1 : (crawlRun true [c1Zip] []).2.map Record.id = [1, 1] := by decide
  refine ⟨h1, ?_⟩
  rw [h1, List.chain'_cons]
  simp

/-- C6 (corrected): for every supported leaf file the embedded _process_file
is total, so a record is always produced and no reader exception escapes
the extraction boundary; a DOCX, XLSX or XLS reader exception is stored as
the corresponding bracketed error placeholder, and when both PDF readers
raise the content is the fixed PDF sentinel.  The claim fails only in
promising a placeholder for every PDF reader exception: when a single PDF
reader raises, the other reader's extracted text is stored instead. -/
theorem c6_reader_errors_contained (n : Nat) (ap : String) (f : FSFile)
    (hsupp : extOfName (FSFile.name f) ∈ documentsExts ++ spreadsheetsExts) :
    (∃ r, processFile n ap f = some r) ∧
    (∀ r, processFile n ap f = some r →
      (∀ e, extOfName (FSFile.name f) ∈ ([".docx", ".doc"] : List String) →
          (FSFile.meta f).docxView = Except.error e →
          r.content = "[Error parsing DOCX: " ++ e ++ "]") ∧
      (∀ e, extOfName (FSFile.name f) = ".xlsx" →
          (FSFile.meta f).xlsxView = Except.error e →
          r.content = "[Error parsing XLSX: " ++ e ++ "]") ∧
      (∀ e, extOfName (FSFile.name f) = ".xls" →
          (FSFile.meta f).xlsView = Except.error e →
          r.content = "[Error parsing XLS: " ++ e ++ "]") ∧
      (∀ e1 e2, extOfName (FSFile.name f) = ".pdf" →
          (FSFile.meta f).pdfView.plumberPages = Except.error e1 →
          (FSFile.meta f).pdfView.pypdf2Pages = Except.error e2 →
          r.content = pdfSentinel)) := by
  refine ⟨processFile_some_of_supported hsupp, ?_⟩
  intro r hr
  have hc := (processFile_some_spec hr).2.2.2
  refine ⟨?_, ?_, ?_, ?_⟩
  · intro e hext hview
    rw [hc]
    simp only [List.mem_cons, List.mem_singleton, List.not_mem_nil, or_false] at hext
    rcases hext with h | h <;> rw [h]
    · show parse_docx (FSFile.meta f).docxView = _
      rw [hview]; rfl
    · show parse_docx (FSFile.meta f).docxView = _
      rw [hview]; rfl
  · intro e hext hview
    rw [hc, hext]
    show parse_xlsx (FSFile.meta f).xlsxView = _
    rw [hview]; rfl
  · intro e hext hview
    rw [hc, hext]
    show parse_xls (FSFile.meta f).xlsView = _
    rw [hview]; rfl
  · intro e1 e2 hext hv1 hv2
    rw [hc, hext]
    show parse_pdf (FSFile.meta f).pdfView = _
    exact parse_pdf_of_empty _ (by rw [hv1]; rfl) (by rw [hv2]; rfl)

/-- C6 counterexample: a concrete PDF on which pdfplumber raises while
PyPDF2 extracts text yields a record whose content is the recovered text,
which is not the PDF extraction-failure placeholder, refuting the claim
that a reader exception always becomes a placeholder stored in content. -/
theorem c6_counterexample :
    (crawlRun true [c6PdfFile] []).2.map Record.content = ["[Page 1] Recovered text"] ∧
    "[Page 1] Recovered text" ≠ pdfSentinel :=
  ⟨by decide, by decide⟩

/-- C6 witness: the containment theorem applied to a concrete DOCX file on
which the reader raises. -/
theorem c6_witness :
    extOfName (FSFile.name c6BadDocx) ∈ documentsExts ++ spreadsheetsExts ∧
    (∃ r, processFile 0 "" c6BadDocx = some r) :=
  ⟨by decide, (c6_reader_errors_contained 0 "" c6BadDocx (by decide)).1⟩

/-- C10 (confirmed): every supported document or spreadsheet extension is a
key of the parsers dispatch table, and every record produced by
_process_file draws its content from the parser found in the table, so the
unsupported-file-type fallback branch of parse_document is unreachable
through the per-file processing path. -/
theorem c10_unsupported_branch_unreachable :
    (∀ e ∈ documentsExts ++ spreadsheetsExts, (parsersLookup e).isSome = true) ∧
    (∀ (n : Nat) (ap : String) (f : FSFile) (r : Record), processFile n ap f = some r →
      ∃ pr, parsersLookup (extOfName (FSFile.name f)) = some pr ∧
        r.content = pr (FSFile.meta f)) := by
  refine ⟨fun e he => parsersLookup_isSome he, ?_⟩
  intro n ap f r hr
  have hspec := processFile_some_spec hr
  obtain ⟨pr, hpr⟩ := Option.isSome_iff_exists.mp (parsersLookup_isSome hspec.1)
  refine ⟨pr, hpr, ?_⟩
  rw [hspec.2.2.2]
  simp only [parse_document, hpr]

/-- C10 witness: the dispatch theorem applied to a concrete record produced
from a DOCX file. -/
theorem c10_witness :
    ∃ pr, parsersLookup (extOfName (FSFile.name c2TopDocx)) = some pr ∧
      Record.content
        { id := 1, file_name := "top.docx", file_type := "document", file_size := 0,
          content := "Top", archive_path := "", created_date := "2024-01-01T00:00:00",
          content_hash := "00" } = pr (FSFile.meta c2TopDocx) :=
  c10_unsupported_branch_unreachable.2 0 "" c2TopDocx _ (by decide)


theorem crawlStep_eq (docs : List Record) (f : FSFile) :
    crawlStep docs f = docs ++ newRecords docs.length f := by
  simp only [crawlStep, newRecords]
  by_cases h : extOfName (FSFile.name f) ∈ archivesExts
  · rw [if_pos h, if_pos h]
  · rw [if_neg h, if_neg h]
    cases hp : processFile docs.length "" f <;> simp

theorem crawlWalk_eq : ∀ (files : List FSFile) (docs : List Record),
    crawlWalk docs files = docs ++ crawlNew docs.length files := by
  intro files
  induction files with
  | nil => intro docs; simp [crawlWalk, crawlNew]
  | cons f rest ih =>
    intro docs
    show crawlWalk (crawlStep docs f) rest = _
    rw [ih, crawlStep_eq]
    simp [crawlNew, List.append_assoc, List.length_append]

theorem processMembers_fsList_append (n : Nat) (full : String) (a b : List FSFile) :
    processMembers n full (fsList (a ++ b)) =
      processMembers n full (fsList a) ++ processMembers n full (fsList b) := by
  induction a with
  | nil => rfl
  | cons m rest ih =>
    simp only [List.cons_append, fsList, processMembers, List.append_eq]
    rw [ih, List.append_assoc]

theorem processArchive_failed (n : Nat) (parent name : String) (meta : FileMeta)
    (members : FSList) :
    processArchive n parent (FSFile.mk name meta false members) = [] := by
  simp only [processArchive]
  split <;> rfl

theorem processMembers_failed_singleton (n : Nat) (full nm : String) (mt : FileMeta)
    (ms : FSList) (hext : extOfName nm ∈ archivesExts) :
    processMembers n full (fsList [FSFile.mk nm mt false ms]) = [] := by
  simp only [fsList, processMembers, FSFile.name]
  rw [if_pos hext, processArchive_failed]
  rfl

theorem processFile_none_of_unsupported {n : Nat} {ap : String} {f : FSFile}
    (h : extOfName (FSFile.name f) ∉ documentsExts ++ spreadsheetsExts) :
    processFile n ap f = none := by
  simp only [processFile]
  rw [if_neg h]

theorem isRelevant_false_parts {f : FSFile} (h : isRelevantExt f = false) :
    extOfName (FSFile.name f) ∉ archivesExts ∧
      extOfName (FSFile.name f) ∉ documentsExts ++ spreadsheetsExts := by
  simp only [isRelevantExt, decide_eq_false_iff_not, List.append_assoc,
    List.mem_append, not_or] at h
  exact ⟨h.2.2, by simp [List.mem_append, not_or]; exact ⟨h.1, h.2.1⟩⟩

mutual
theorem processArchive_prune (n : Nat) (parent : String) (f : FSFile) :
    processArchive n parent (pruneFS f) = processArchive n parent f := by
  cases f with
  | mk name meta ok members =>
    simp only [pruneFS, processArchive]
    rw [processMembers_prune n (fullOf parent name) members]

theorem processMembers_prune (n : Nat) (full : String) (ms : FSList) :
    processMembers n full (pruneList ms) = processMembers n full ms := by
  cases ms with
  | nil => rfl
  | cons m rest =>
    by_cases hrel : isRelevantExt m = true
    · simp only [pruneList, hrel, if_true, processMembers]
      rw [processMembers_prune n full rest]
      congr 1
      cases m with
      | mk nm mt mok mms =>
        simp only [pruneFS, FSFile.name]
        by_cases hext : extOfName nm ∈ archivesExts
        · rw [if_pos hext, if_pos hext]
          have h2 := processArchive_prune n full (FSFile.mk nm mt mok mms)
          simpa only [pruneFS] using h2
        · rw [if_neg hext, if_neg hext]
          rfl
    · rw [Bool.not_eq_true] at hrel
      simp only [pruneList, hrel, Bool.false_eq_true, if_false]
      rw [processMembers_prune n full rest]
      obtain ⟨hext, hsup⟩ := isRelevant_false_parts hrel
      show _ = processMembers n full (FSList.cons m rest)
      simp only [processMembers]
      rw [if_neg hext, processFile_none_of_unsupported hsup]
      rfl
end

theorem crawlStep_prune (docs : List Record) (f : FSFile) :
    crawlStep docs (pruneFS f) = crawlStep docs f := by
  cases f with
  | mk nm mt ok ms =>
    simp only [crawlStep, pruneFS, FSFile.name]
    by_cases hext : extOfName nm ∈ archivesExts
    · rw [if_pos hext, if_pos hext]
      have h2 := processArchive_prune docs.length "" (FSFile.mk nm mt ok ms)
      simp only [pruneFS] at h2
      rw [h2]
    · rw [if_neg hext, if_neg hext]
      rfl

theorem crawlStep_irrelevant (docs : List Record) (f : FSFile)
    (h : isRelevantExt f = false) : crawlStep docs f = docs := by
  obtain ⟨hext, hsup⟩ := isRelevant_false_parts h
  simp only [crawlStep]
  rw [if_neg hext, processFile_none_of_unsupported hsup]

theorem pruneFiles_cons (f : FSFile) (rest : List FSFile) :
    pruneFiles (f :: rest) =
      (if isRelevantExt f then pruneFS f :: pruneFiles rest else pruneFiles rest) := by
  simp only [pruneFiles, List.filter_cons]
  split <;> simp

/-- C7 (confirmed): a file whose extension is not a supported document or
spreadsheet extension never yields a record in _process_file, and removing
every file with an extension outside the supported document, spreadsheet
and archive sets, at any nesting level, leaves the whole crawl result
unchanged, so such files produce zero records; the embedding has no error
channel, matching the code, which only prints progress lines for them. -/
theorem c7_unsupported_ignored :
    (∀ (n : Nat) (ap : String) (f : FSFile),
        extOfName (FSFile.name f) ∉ documentsExts ++ spreadsheetsExts →
        processFile n ap f = none) ∧
    (∀ (docs : List Record) (files : List FSFile),
        crawlWalk docs (pruneFiles files) = crawlWalk docs files) := by
  refine ⟨fun n ap f h => processFile_none_of_unsupported h, ?_⟩
  intro docs files
  induction files generalizing docs with
  | nil => rfl
  | cons f rest ih =>
    rw [pruneFiles_cons]
    by_cases hrel : isRelevantExt f = true
    · rw [if_pos hrel]
      show crawlWalk (crawlStep docs (pruneFS f)) (pruneFiles rest) =
        crawlWalk (crawlStep docs f) rest
      rw [crawlStep_prune, ih]
    · rw [if_neg hrel]
      rw [Bool.not_eq_true] at hrel
      show crawlWalk docs (pruneFiles rest) = crawlWalk (crawlStep docs f) rest
      rw [crawlStep_irrelevant docs f hrel, ih]

/-- C7 witness: the theorem applied to a concrete txt file. -/
theorem c7_witness :
    extOfName (FSFile.name txtFile) ∉ documentsExts ++ spreadsheetsExts ∧
      processFile 0 "" txtFile = none :=
  ⟨by decide, c7_unsupported_ignored.1 0 "" txtFile (by decide)⟩

/-- C8 (confirmed): an archive whose extraction fails contributes an empty
result for its whole subtree; dropping such an archive from the walk list
leaves the crawl of every sibling and later file unchanged, and dropping it
from the member list of any enclosing archive leaves that archive's result
unchanged, so the failure never aborts siblings, ancestors or the walk. -/
theorem c8_extraction_failure_isolated :
    (∀ (n : Nat) (parent name : String) (meta : FileMeta) (members : FSList),
        processArchive n parent (FSFile.mk name meta false members) = []) ∧
    (∀ (docs : List Record) (pre post : List FSFile) (f : FSFile),
        FSFile.extractOk f = false → extOfName (FSFile.name f) ∈ archivesExts →
        crawlWalk docs (pre ++ f :: post) = crawlWalk docs (pre ++ post)) ∧
    (∀ (n : Nat) (parent name : String) (meta : FileMeta) (ok : Bool)
        (pre post : List FSFile) (f : FSFile),
        FSFile.extractOk f = false → extOfName (FSFile.name f) ∈ archivesExts →
        processArchive n parent (FSFile.mk name meta ok (fsList (pre ++ f :: post))) =
          processArchive n parent (FSFile.mk name meta ok (fsList (pre ++ post)))) := by
  refine ⟨fun n parent name meta members => processArchive_failed n parent name meta members,
    ?_, ?_⟩
  · intro docs pre post f hok hext
    cases f with
    | mk nm mt ok ms =>
      simp only [FSFile.extractOk] at hok
      subst hok
      show List.foldl crawlStep docs (pre ++ FSFile.mk nm mt false ms :: post) =
        List.foldl crawlStep docs (pre ++ post)
      rw [List.foldl_append, List.foldl_append, List.foldl_cons]
      have hstep : crawlStep (List.foldl crawlStep docs pre) (FSFile.mk nm mt false ms) =
          List.foldl crawlStep docs pre := by
        simp only [crawlStep, FSFile.name]
        simp only [FSFile.name] at hext
        rw [if_pos hext, processArchive_failed, List.append_nil]
      rw [hstep]
  · intro n parent name meta ok pre post f hok hext
    cases f with
    | mk nm mt fok ms =>
      simp only [FSFile.extractOk] at hok
      subst hok
      simp only [FSFile.name] at hext
      have hm : processMembers n (fullOf parent name)
            (fsList (pre ++ FSFile.mk nm mt false ms :: post)) =
          processMembers n (fullOf parent name) (fsList (pre ++ post)) := by
        have hsplit : pre ++ FSFile.mk nm mt false ms :: post =
            (pre ++ [FSFile.mk nm mt false ms]) ++ post := by simp
        rw [hsplit, processMembers_fsList_append, processMembers_fsList_append,
          processMembers_fsList_append,
          processMembers_failed_singleton n (fullOf parent name) nm mt ms hext,
          List.append_nil]
      simp only [processArchive]
      rw [hm]

/-- C8 witness: the sibling-isolation part applied to a concrete walk where
a failing zip precedes a DOCX file. -/
theorem c8_witness :
    FSFile.extractOk badZip = false ∧ extOfName (FSFile.name badZip) ∈ archivesExts ∧
      crawlWalk [] ([c2TopDocx] ++ badZip :: []) = crawlWalk [] ([c2TopDocx] ++ []) :=
  ⟨rfl, by decide,
    c8_extraction_failure_isolated.2.1 [] [c2TopDocx] [] badZip rfl (by decide)⟩


theorem append_ne_empty_left {s : String} (t : String) (h : s ≠ "") : s ++ t ≠ "" := by
  intro he
  apply h
  apply stringDataEq
  have hd := congrArg String.data he
  rw [String.data_append] at hd
  exact (List.append_eq_nil.mp hd).1

theorem fullOf_ne_empty {parent name : String} (h : parent ≠ "" ∨ name ≠ "") :
    fullOf parent name ≠ "" := by
  unfold fullOf
  by_cases hp : parent = ""
  · rw [if_pos hp]
    rcases h with h | h
    · exact absurd hp h
    · exact h
  · rw [if_neg hp]
    exact append_ne_empty_left name (append_ne_empty_left "/" hp)

mutual
theorem processArchive_path_ne (n : Nat) (parent : String) (f : FSFile)
    (hne : parent ≠ "" ∨ FSFile.name f ≠ "") :
    ∀ r ∈ processArchive n parent f, r.archive_path ≠ "" := by
  cases f with
  | mk name meta ok members =>
    intro r hr
    simp only [processArchive] at hr
    split at hr
    · split at hr
      · have hfull : fullOf parent name ≠ "" :=
          fullOf_ne_empty (by simpa only [FSFile.name] using hne)
        exact processMembers_path_ne n (fullOf parent name) members hfull r hr
      · cases hr
    · cases hr

theorem processMembers_path_ne (n : Nat) (full : String) (ms : FSList)
    (hfull : full ≠ "") :
    ∀ r ∈ processMembers n full ms, r.archive_path ≠ "" := by
  cases ms with
  | nil => intro r hr; cases hr
  | cons m rest =>
    intro r hr
    simp only [processMembers] at hr
    rw [List.mem_append] at hr
    rcases hr with hr | hr
    · split at hr
      · exact processArchive_path_ne n full m (Or.inl hfull) r hr
      · have hro : processFile n full m = some r :=
          Option.mem_def.mp (Option.mem_toList.mp hr)
        rw [(processFile_some_spec hro).2.2.1]
        exact hfull
    · exact processMembers_path_ne n full rest hfull r hr
end

theorem mem_crawlNew {r : Record} : ∀ (files : List FSFile) (n : Nat),
    r ∈ crawlNew n files →
    ∃ f ∈ files,
      (extOfName (FSFile.name f) ∈ archivesExts ∧ ∃ m, r ∈ processArchive m "" f) ∨
      (∃ m, processFile m "" f = some r) := by
  intro files
  induction files with
  | nil => intro n hr; cases hr
  | cons f rest ih =>
    intro n hr
    simp only [crawlNew] at hr
    rw [List.mem_append] at hr
    rcases hr with hr | hr
    · refine ⟨f, List.mem_cons_self _ _, ?_⟩
      by_cases hext : extOfName (FSFile.name f) ∈ archivesExts
      · rw [newRecords, if_pos hext] at hr
        exact Or.inl ⟨hext, n, hr⟩
      · rw [newRecords, if_neg hext] at hr
        exact Or.inr ⟨n, Option.mem_def.mp (Option.mem_toList.mp hr)⟩
    · obtain ⟨g, hg, hgood⟩ := ih _ hr
      exact ⟨g, List.mem_cons_of_mem _ hg, hgood⟩

/-- C2 (confirmed): in every crawl from an existing storage root whose
walked files have nonempty names, a record carries an empty archive_path
exactly when it was produced by the top-level _process_file call on a
walked file (records produced anywhere inside an archive always carry a
nonempty chain); and on the concrete doubly nested storage, outer.zip
containing inner.zip containing c.docx, the produced record carries
archive_path outer.zip/inner.zip, the slash-joined outer-to-inner chain of
container archive names. -/
theorem c2_archive_path_provenance :
    (∀ (files : List FSFile) (r : Record),
        (∀ f ∈ files, FSFile.name f ≠ "") →
        r ∈ (crawlRun true files []).2 →
        (r.archive_path = "" ↔ ∃ m, ∃ f ∈ files, processFile m "" f = some r)) ∧
    (crawlRun true [c2Outer] []).2.map Record.archive_path = ["outer.zip/inner.zip"] := by
  constructor
  · intro files r hn hr
    constructor
    · intro hpath
      have hr2 : r ∈ crawlWalk [] files := hr
      rw [crawlWalk_eq] at hr2
      simp only [List.nil_append, List.length_nil] at hr2
      obtain ⟨f, hf, hgood⟩ := mem_crawlNew files 0 hr2
      rcases hgood with ⟨_, m, hmem⟩ | ⟨m, hsome⟩
      · exact absurd hpath (processArchive_path_ne m "" f (Or.inr (hn f hf)) r hmem)
      · exact ⟨m, f, hf, hsome⟩
    · rintro ⟨m, f, hf, hsome⟩
      exact (processFile_some_spec hsome).2.2.1
  · decide

/-- C2 witness: the equivalence applied to the record of a concrete
top-level DOCX file. -/
theorem c2_witness :
    (Record.mk 1 "top.docx" "document" 0 "Top" "" "2024-01-01T00:00:00" "00").archive_path = ""
      ↔ ∃ m, ∃ f ∈ [c2TopDocx],
          processFile m "" f =
            some (Record.mk 1 "top.docx" "document" 0 "Top" "" "2024-01-01T00:00:00" "00") :=
  c2_archive_path_provenance.1 [c2TopDocx] _ (by decide) (by decide)

/-- C9 (corrected): a crawler instance starts with an empty record
sequence, but crawl() never resets it: a crawl over an existing storage
appends the newly discovered records to whatever the sequence already
holds and returns the whole sequence, so a second crawl on the same
instance returns the first crawl's records followed by the records
discovered during the second crawl, not only the latter. -/
theorem c9_crawl_accumulates (files : List FSFile) :
    (crawlRun true files []).2 = crawlNew 0 files ∧
    (∀ docs : List Record,
        (crawlRun true files docs).2 = docs ++ crawlNew docs.length files) ∧
    (crawlRun true files ((crawlRun true files []).1)).2 =
      (crawlRun true files []).2 ++ crawlNew ((crawlRun true files []).2).length files := by
  have hgen : ∀ docs : List Record,
      (crawlRun true files docs).2 = docs ++ crawlNew docs.length files := by
    intro docs
    show crawlWalk docs files = _
    exact crawlWalk_eq files docs
  refine ⟨by simpa using hgen [], hgen, ?_⟩
  rw [hgen]
  rfl

/-- C9 counterexample: crawling a one-DOCX storage twice with the same
crawler instance returns, on the second call, the record produced during
the first crawl followed by a freshly produced record, so the second
result does not consist only of records discovered during the second
crawl. -/
theorem c9_counterexample :
    (crawlRun true c9Files []).2 =
      [Record.mk 1 "only.docx" "document" 0 "Hi" "" "2024-01-01T00:00:00" "00"] ∧
    (crawlRun true c9Files ((crawlRun true c9Files []).1)).2 =
      [Record.mk 1 "only.docx" "document" 0 "Hi" "" "2024-01-01T00:00:00" "00",
       Record.mk 2 "only.docx" "document" 0 "Hi" "" "2024-01-01T00:00:00" "00"] :=
  ⟨by decide, by decide⟩

end Crawler
